import Mathlib

/-!
Verification of the dmutils repository (CookingANut/dmutils) against its
natural-language specification.  The definitions below are a shallow
embedding of the relevant parts of `src/dmutils.py`:

* the command executor `sysc` (dmutils.py, lines 917-939);
* the threaded progress-bar runner `_progress_bar` (lines 2177-2249) and
  its decorator `progressbar` (lines 2252-2317).

Machine floats from the Python source are modelled as exact rationals;
the worker thread's lifetime is modelled by the number `k` of polling-loop
iterations during which `thread.is_alive()` returned `True`, and the
unbounded `while` loops by an explicit fuel parameter.
-/

set_option autoImplicit false

namespace Dmutils

/-! ### Command executor `sysc` (dmutils.py 917-939)

Python source of the loop being modelled:

  p = subprocess.Popen(command, shell=True, stdout=PIPE, stderr=STDOUT, ...)
  OUT = []
  while (line := p.stdout.readline()) != '' or (RC := p.poll()) is None:
      if line:
          stripped_line = line.strip()
          if outprint: printfunction(...)   -- display only, not modelled
          OUT.append(stripped_line)
  return OUT, RC

A process is modelled by the finite sequence of raw lines `readline`
yields before end-of-file (each read from a pipe returns a nonempty
string, ending in a newline, until EOF), the number of times `p.poll()`
still returns `None` after the stream is exhausted (the process can keep
running briefly after closing its stdout), and the final exit code. -/

structure Proc where
  lines : List String
  idleReads : Nat
  exitCode : Int

/-- Model of Python's `str.strip()`: remove leading and trailing
whitespace characters. -/
def pyStrip (s : String) : String :=
  String.mk (((s.data.dropWhile Char.isWhitespace).reverse.dropWhile
    Char.isWhitespace).reverse)

/-- Phase of the `sysc` loop after the output stream is exhausted:
`readline` returns the empty string, so the guard evaluates `p.poll()`;
while it returns `None` the loop body runs with `line = ''` and appends
nothing; once it returns the exit code the loop exits with `RC` bound to
that code. -/
def syscIdle : Nat → Int → List String → List String × Int
  | Nat.succ n, rc, out => syscIdle n rc out
  | 0, rc, out => (out, rc)

/-- Phase of the `sysc` loop while `readline` still yields data.  A
nonempty line short-circuits the guard (`p.poll()` is not called) and the
body appends the stripped line to `OUT`.  An empty read while further
output is still to come can only happen with the process still running,
so the guard's `p.poll()` is `None` and the body appends nothing. -/
def syscLines : List String → Nat → Int → List String → List String × Int
  | line :: rest, idle, rc, out =>
      if line = "" then syscLines rest idle rc out
      else syscLines rest idle rc (out ++ [pyStrip line])
  | [], idle, rc, out => syscIdle idle rc out

/-- Model of `sysc(command, ...)`: returns the collected stripped lines
and the exit code.  Python's `str.strip()` is modelled by `pyStrip`. -/
def sysc (p : Proc) : List String × Int :=
  syscLines p.lines p.idleReads p.exitCode []

lemma syscIdle_eq (n : Nat) (rc : Int) (out : List String) :
    syscIdle n rc out = (out, rc) := by
  induction n with
  | zero => rfl
  | succ n ih => simpa [syscIdle] using ih

lemma syscLines_eq (ls : List String) (idle : Nat) (rc : Int)
    (out : List String) (h : ∀ l ∈ ls, l ≠ "") :
    syscLines ls idle rc out = (out ++ ls.map pyStrip, rc) := by
  induction ls generalizing out with
  | nil => simp [syscLines, syscIdle_eq]
  | cons line rest ih =>
      have hline : line ≠ "" := h line (by simp)
      have hrest : ∀ l ∈ rest, l ≠ "" := fun l hl => h l (by simp [hl])
      simp [syscLines, hline, ih _ hrest]

/-- C8: for every command run through `sysc`, the returned value is the
ordered sequence of stripped output lines in the order the process
emitted them, together with the process's actual integer exit code; the
exit code is captured only at loop exit, which requires both an exhausted
stream and a non-`None` poll (structurally, `syscLines` only reaches the
exit-code pair through `syscIdle` after `lines` is empty and the
remaining `None`-polls are consumed). -/
theorem sysc_lines_and_exit_code (p : Proc) (h : ∀ l ∈ p.lines, l ≠ "") :
    sysc p = (p.lines.map pyStrip, p.exitCode) := by
  simpa [sysc] using syscLines_eq p.lines p.idleReads p.exitCode [] h

/-- Witness for C8: a process printing "a" then "b" with exit code 0
yields the line sequence ["a", "b"] in order and exit code 0. -/
theorem sysc_lines_and_exit_code_witness :
    (∀ l ∈ (Proc.mk ["a\n", "b\n"] 1 0).lines, l ≠ "") ∧
    sysc (Proc.mk ["a\n", "b\n"] 1 0) = (["a", "b"], 0) := by
  refine ⟨by decide, ?_⟩
  have h := sysc_lines_and_exit_code (Proc.mk ["a\n", "b\n"] 1 0) (by decide)
  have h1 : pyStrip "a\n" = "a" := by decide
  have h2 : pyStrip "b\n" = "b" := by decide
  simpa [h1, h2] using h

/-! ### Display handle and kwargs injection (dmutils.py 2213-2226)

Python source being modelled:

  class _progress_bar_build_in_print():
      @staticmethod
      def print_with_bar(msg):
          pbar.bar_format = tqdm_kwargs["bar_format"] + msg
      @staticmethod
      def print_in_line(msg):
          pbar.write(msg)
      print = print_with_bar
      write = print_in_line

  if '_progress_bar' in kwargs.keys():
      kwargs['_progress_bar'] = _progress_bar_build_in_print
-/

/-- Observable state of the tqdm bar object touched by the handle: its
`bar_format` template string and the standalone lines emitted through
`pbar.write`. -/
structure BarState where
  bar_format : String
  written : List String

/-- Model of `_progress_bar_build_in_print.print_with_bar`: overwrite the
progress line's trailing text by re-assigning `pbar.bar_format` to the
configured base template followed by the message. -/
def print_with_bar (base msg : String) (s : BarState) : BarState :=
  BarState.mk (base ++ msg) s.written

/-- Model of `_progress_bar_build_in_print.print_in_line`: emit the
message on its own line via `pbar.write`, leaving the progress line's
template untouched. -/
def print_in_line (msg : String) (s : BarState) : BarState :=
  BarState.mk s.bar_format (s.written ++ [msg])

/-- A Python value stored in the kwargs dict: either the built-in handle
class `_progress_bar_build_in_print` or any caller-supplied value. -/
inductive Val where
  | builtinHandle
  | user (n : Nat)
deriving DecidableEq

/-- The reserved keyword-argument name checked by `_progress_bar`. -/
def pbKey : String := "_progress_bar"

/-- Model of the in-place kwargs mutation at dmutils.py 2223-2224: if the
dict has key `'_progress_bar'`, its value is overwritten with the built-in
handle class; otherwise the dict is untouched.  A dict is modelled as an
association list with lookup by first match. -/
def injectHandle (kwargs : List (String × Val)) : List (String × Val) :=
  if pbKey ∈ kwargs.map Prod.fst then
    kwargs.map (fun p => if p.1 = pbKey then (p.1, Val.builtinHandle) else p)
  else kwargs

/-- Keyword arguments actually handed to the worker thread: the injection
happens (in place, on the caller's dict) before `thread.start()` at
dmutils.py 2228, so the spawned `return_save` sees the mutated dict. -/
def threadKwargs (kwargs : List (String × Val)) : List (String × Val) :=
  injectHandle kwargs

/-- Condition stated by the spec for when the handle is injected,
following the spec's words rather than the source: "the wrapped function
declares a parameter for receiving the display handle".  `params` is the
list of the wrapped function's declared parameter names. -/
def specDeclaredParamCond (params : List String) : Prop :=
  pbKey ∈ params

/-- First-match lookup in the association-list model of a Python dict. -/
def dictGet (k : String) : List (String × Val) → Option Val
  | [] => none
  | p :: rest => if p.1 = k then some p.2 else dictGet k rest

lemma dictGet_none_of_not_mem (k : String) (l : List (String × Val))
    (h : k ∉ l.map Prod.fst) : dictGet k l = none := by
  induction l with
  | nil => rfl
  | cons p rest ih =>
      have hp : p.1 ≠ k := fun e => h (List.mem_map.mpr ⟨p, by simp, e⟩)
      have hr : k ∉ rest.map Prod.fst := fun hm => by
        rcases List.mem_map.mp hm with ⟨q, hq, hq1⟩
        exact h (List.mem_map.mpr ⟨q, by simp [hq], hq1⟩)
      simpa [dictGet, hp] using ih hr

lemma dictGet_some_of_mem (k : String) (l : List (String × Val))
    (h : k ∈ l.map Prod.fst) : ∃ v, dictGet k l = some v := by
  induction l with
  | nil => simp at h
  | cons p rest ih =>
      by_cases hp : p.1 = k
      · exact ⟨p.2, by simp [dictGet, hp]⟩
      · have hr : k ∈ rest.map Prod.fst := by
          rcases List.mem_map.mp h with ⟨q, hq, hq1⟩
          rcases List.mem_cons.mp hq with rfl | hq'
          · exact absurd hq1 hp
          · exact List.mem_map.mpr ⟨q, hq', hq1⟩
        rcases ih hr with ⟨v, hv⟩
        exact ⟨v, by simpa [dictGet, hp] using hv⟩

lemma mem_of_dictGet_some (k : String) (l : List (String × Val)) (v : Val)
    (h : dictGet k l = some v) : k ∈ l.map Prod.fst := by
  by_contra hmem
  rw [dictGet_none_of_not_mem k l hmem] at h
  exact Option.noConfusion h

lemma dictGet_injectHandle_of_mem (kwargs : List (String × Val))
    (h : pbKey ∈ kwargs.map Prod.fst) :
    dictGet pbKey (injectHandle kwargs) = some Val.builtinHandle := by
  rw [injectHandle, if_pos h]
  induction kwargs with
  | nil => simp at h
  | cons p rest ih =>
      by_cases hp : p.1 = pbKey
      · simp [dictGet, hp]
      · have hr : pbKey ∈ rest.map Prod.fst := by
          rcases List.mem_map.mp h with ⟨q, hq, hq1⟩
          rcases List.mem_cons.mp hq with rfl | hq'
          · exact absurd hq1 hp
          · exact List.mem_map.mpr ⟨q, hq', hq1⟩
        simpa [dictGet, hp] using ih hr

lemma dictGet_injectHandle_other (kwargs : List (String × Val))
    (k : String) (hk : k ≠ pbKey) :
    dictGet k (injectHandle kwargs) = dictGet k kwargs := by
  rw [injectHandle]
  by_cases h : pbKey ∈ kwargs.map Prod.fst
  · rw [if_pos h]
    clear h
    induction kwargs with
    | nil => rfl
    | cons p rest ih =>
        by_cases hp : p.1 = pbKey
        · have hpk : ¬ (pbKey = k) := fun e => hk e.symm
          simp [dictGet, hp, hpk, ih]
        · by_cases hkp : p.1 = k
          · simp [dictGet, hp, hkp, hk]
          · simp [dictGet, hp, hkp, ih]
  · rw [if_neg h]

/-- C7 counterexample: the claim says injection happens exactly when the
wrapped function declares a `_progress_bar` parameter; but for a function
declaring that parameter called with an empty kwargs dict, the code
(which only inspects `kwargs.keys()`) injects nothing. -/
theorem inject_on_declared_param_false :
    specDeclaredParamCond [pbKey] ∧
    dictGet pbKey (injectHandle ([] : List (String × Val))) = none := by
  exact ⟨by simp [specDeclaredParamCond], rfl⟩

/-- C7 (amended): the decorator machinery injects the built-in handle
exactly when the call-time kwargs mapping contains the key
`'_progress_bar'` (regardless of the function's declared parameters), and
the injected handle exposes `print_with_bar` (overwrite the progress
line's trailing text) and `print_in_line` (emit a message on its own
line). -/
theorem inject_iff_kwargs_key_and_handle_ops (kwargs : List (String × Val)) :
    (dictGet pbKey (injectHandle kwargs) = some Val.builtinHandle ↔
      ∃ v, dictGet pbKey kwargs = some v) ∧
    (∀ base msg s, (print_with_bar base msg s).bar_format = base ++ msg ∧
      (print_with_bar base msg s).written = s.written) ∧
    (∀ msg s, (print_in_line msg s).written = s.written ++ [msg] ∧
      (print_in_line msg s).bar_format = s.bar_format) := by
  refine ⟨⟨fun h => ?_, fun h => ?_⟩,
    fun base msg s => ⟨rfl, rfl⟩, fun msg s => ⟨rfl, rfl⟩⟩
  · by_cases hmem : pbKey ∈ kwargs.map Prod.fst
    · exact dictGet_some_of_mem pbKey kwargs hmem
    · rw [injectHandle, if_neg hmem, dictGet_none_of_not_mem pbKey kwargs hmem]
        at h
      exact Option.noConfusion h
  · rcases h with ⟨v, hv⟩
    exact dictGet_injectHandle_of_mem kwargs
      (mem_of_dictGet_some pbKey kwargs v hv)

/-- C9: when the caller's kwargs contain the key `'_progress_bar'`, the
caller-supplied value is discarded and replaced by the built-in handle in
the dict handed to the worker thread (the in-place mutation at dmutils.py
2223-2224 precedes `thread.start()`), and no entry under any other key
changes. -/
theorem kwargs_injection_replaces_value (kwargs : List (String × Val))
    (v : Val) (h : dictGet pbKey kwargs = some v) :
    dictGet pbKey (threadKwargs kwargs) = some Val.builtinHandle ∧
    ∀ k, k ≠ pbKey → dictGet k (threadKwargs kwargs) = dictGet k kwargs := by
  refine ⟨?_, fun k hk => dictGet_injectHandle_other kwargs k hk⟩
  exact dictGet_injectHandle_of_mem kwargs (mem_of_dictGet_some pbKey kwargs v h)

/-- Witness for C9: a caller passing `_progress_bar = user 7` and
`x = user 1` sees the handle slot replaced by the built-in class while the
other entry is preserved. -/
theorem kwargs_injection_replaces_value_witness :
    dictGet pbKey [(pbKey, Val.user 7), ("x", Val.user 1)] = some (Val.user 7) ∧
    dictGet pbKey (threadKwargs [(pbKey, Val.user 7), ("x", Val.user 1)]) =
      some Val.builtinHandle ∧
    ∀ k, k ≠ pbKey →
      dictGet k (threadKwargs [(pbKey, Val.user 7), ("x", Val.user 1)]) =
        dictGet k [(pbKey, Val.user 7), ("x", Val.user 1)] := by
  refine ⟨by decide, ?_⟩
  exact kwargs_injection_replaces_value _ (Val.user 7) (by decide)

/-! ### Worker-thread progress runner `_progress_bar` (dmutils.py 2205-2249)

Python source of the two display loops being modelled:

  actuall_time = 0
  thread.start()
  while thread.is_alive():
      thread.join(timeout=tstep)
      if actuall_time < estimated_time:
          pbar.update(tstep)
          actuall_time += tstep
      if actuall_time + tstep > estimated_time:
          tstep = estimated_time - actuall_time
          pbar.update(tstep)
          actuall_time += tstep
  while(actuall_time < estimated_time):
      if actuall_time + tstep > estimated_time:
          tstep = estimated_time - actuall_time
      pbar.update(tstep)
      actuall_time += tstep
  pbar.close()
  return ret[0]

Floats are modelled as exact rationals.  `a` is `actuall_time`, `t` is
the (mutable!) `tstep` variable, and `updates` records every increment
passed to `pbar.update`, in order; the displayed progress after any
number of updates is the corresponding prefix sum of `updates`. -/

structure PBState where
  a : ℚ
  t : ℚ
  updates : List ℚ
deriving DecidableEq

/-- State at `thread.start()`: no time accumulated, `tstep` as passed in,
no updates issued yet. -/
def pbInit (t0 : ℚ) : PBState :=
  PBState.mk 0 t0 []

/-- One iteration of the first loop (executed while `thread.is_alive()`
observed `True`): a full-step update while below the estimate, then the
remainder patch-up when one more step would overshoot. -/
def pollIter (est : ℚ) (s : PBState) : PBState :=
  let s1 := if s.a < est then
    PBState.mk (s.a + s.t) s.t (s.updates ++ [s.t]) else s
  if s1.a + s1.t > est then
    PBState.mk est (est - s1.a) (s1.updates ++ [est - s1.a])
  else s1

/-- The running phase: `k` iterations of the polling loop, `k` being the
number of times `thread.is_alive()` returned `True` before the worker was
observed terminated. -/
def runningPhase (est t0 : ℚ) (k : Nat) : PBState :=
  (pollIter est)^[k] (pbInit t0)

/-- One iteration of the catch-up loop body (entered with `a < est`):
shrink `tstep` to the remainder if a full step would overshoot, then
update and accumulate. -/
def catchupStep (est : ℚ) (s : PBState) : PBState :=
  let t1 := if s.a + s.t > est then est - s.a else s.t
  PBState.mk (s.a + t1) t1 (s.updates ++ [t1])

/-- The catch-up loop with explicit fuel: runs the body while
`actuall_time < estimated_time`, up to `n` iterations.  A run of the
Python loop that terminates is `catchupFuel est n s` for any `n` large
enough that the guard has failed. -/
def catchupFuel (est : ℚ) : Nat → PBState → PBState
  | 0, s => s
  | Nat.succ n, s => if s.a < est then catchupFuel est n (catchupStep est s) else s

/-- Both display loops of `_progress_bar` in sequence: the running phase
for `k` alive-polls, then the catch-up loop with fuel `n`. -/
def progressRun (est t0 : ℚ) (k n : Nat) : PBState :=
  catchupFuel est n (runningPhase est t0 k)

/-- Model of `return_save` (dmutils.py 2210-2211): the worker thread body
stores the task's value in the single-slot holder `ret[0]`.  The task is
modelled as already-evaluated: `Except.ok b` if `function(*args, **kwargs)`
returns `b`, `Except.error e` if it raises `e`.  On the error path the
assignment to `ret[0]` never happens — the exception escapes `return_save`
into `Thread.run`, which swallows it (prints a traceback on stderr), so
the slot keeps its initial `None`. -/
def return_save {β ε : Type} (res : Except ε β) : Option β :=
  match res with
  | Except.ok b => some b
  | Except.error _ => none

/-- Result of a terminating `_progress_bar(function, ...)` call as seen by
the caller, for a worker that was observed alive for `k` polls and a
catch-up loop that ran at most `n` iterations.  The foreground code has no
try/except and never re-raises the worker's exception, so the call always
returns normally with `ret[0]`; `Except.ok` on the caller side records
that no exception reaches the caller. -/
def pbCall {α β ε : Type} (f : α → Except ε β) (x : α) (est t0 : ℚ)
    (k n : Nat) : Except ε (Option β) × PBState :=
  (Except.ok (return_save (f x)), progressRun est t0 k n)

/-- Model of the decorator produced by `progressbar(...)` (dmutils.py
2312-2317): the wrapper forwards the call unchanged to `_progress_bar`
with the configured estimate and step. -/
def progressbar {α β ε : Type} (est t0 : ℚ) (f : α → Except ε β) (x : α)
    (k n : Nat) : Except ε (Option β) × PBState :=
  pbCall f x est t0 k n

/-- Observable events of one `_progress_bar` call, in program order. -/
inductive PBEvent (β : Type) where
  | update (q : ℚ)
  | observeDead
  | close
  | readRet (r : Option β)
deriving DecidableEq

/-- Event trace of one terminating `_progress_bar` call: the running
phase's updates while the worker is alive (the worker's write to `ret[0]`
happens before `thread.is_alive()` can return `False`), then the
observation that the worker terminated (loop exit), the catch-up updates,
`pbar.close()`, and finally the read of `ret[0]` in the return statement. -/
def pbTrace {α β ε : Type} (f : α → Except ε β) (x : α) (est t0 : ℚ)
    (k n : Nat) : List (PBEvent β) :=
  let rp := runningPhase est t0 k
  let cu := catchupFuel est n rp
  rp.updates.map PBEvent.update ++ [PBEvent.observeDead]
    ++ (cu.updates.drop rp.updates.length).map PBEvent.update
    ++ [PBEvent.close, PBEvent.readRet (return_save (f x))]

/-- C1: for a deterministic task that returns `v`, the decorated call
returns exactly `v` (stored through the single-slot holder `ret`), and in
the event trace the holder is read only after the worker is observed
terminated and after the display is closed. -/
theorem progressbar_result_fidelity {α β ε : Type} (f : α → Except ε β)
    (x : α) (v : β) (est t0 : ℚ) (k n : Nat) (h : f x = Except.ok v) :
    (progressbar est t0 f x k n).1 = Except.ok (some v) ∧
    ∃ pre, pbTrace f x est t0 k n =
        pre ++ [PBEvent.close, PBEvent.readRet (some v)] ∧
      PBEvent.observeDead ∈ pre ∧ PBEvent.readRet (some v) ∉ pre := by
  constructor
  · simp [progressbar, pbCall, return_save, h]
  · refine ⟨(runningPhase est t0 k).updates.map PBEvent.update
      ++ [PBEvent.observeDead]
      ++ ((catchupFuel est n (runningPhase est t0 k)).updates.drop
        (runningPhase est t0 k).updates.length).map PBEvent.update,
      ?_, ?_, ?_⟩
    · simp [pbTrace, return_save, h]
    · simp
    · intro hmem
      simp only [List.mem_append, List.mem_map, List.mem_singleton] at hmem
      rcases hmem with (⟨q, _, hq⟩ | hq) | ⟨q, _, hq⟩ <;>
        exact PBEvent.noConfusion hq

/-- Witness task for C1: the successor function, always returning
normally. -/
def incTask (m : Nat) : Except String Nat :=
  Except.ok (m + 1)

/-- Witness for C1: decorating the successor function with estimate 1 and
step 1 returns 4 on input 3, and the trace reads the holder last. -/
theorem progressbar_result_fidelity_witness :
    incTask 3 = Except.ok 4 ∧
    ((progressbar 1 1 incTask 3 0 3).1 = Except.ok (some 4) ∧
      ∃ pre, pbTrace incTask 3 1 1 0 3 =
          pre ++ [PBEvent.close, PBEvent.readRet (some 4)] ∧
        PBEvent.observeDead ∈ pre ∧ PBEvent.readRet (some 4) ∉ pre) :=
  ⟨rfl, progressbar_result_fidelity incTask 3 4 1 1 0 3 rfl⟩

/-- C2 (code bug evidence): for a task that raises, the decorated call
does NOT raise — the exception dies inside the worker thread (swallowed
by `Thread.run`), `ret[0]` keeps its initial `None`, and the caller
receives a normal return of `None`.  Here with `estimated_time = 5`,
`tstep = 1`, a worker alive for 2 polls and a task raising `"boom"`. -/
theorem exception_swallowed_returns_none :
    (pbCall (fun _ : Unit => (Except.error "boom" : Except String Nat))
        () 5 1 2 3).1 = Except.ok none ∧
    (pbCall (fun _ : Unit => (Except.error "boom" : Except String Nat))
        () 5 1 2 3).1 ≠ Except.error "boom" := by
  exact ⟨rfl, by simp [pbCall]⟩

/-- C6 (code bug evidence): `progressbar` and `_progress_bar` perform no
validation of `estimated_time` or `tstep`.  With `estimated_time = 1` and
`tstep = 0` no error is raised; instead, after the worker finishes the
catch-up loop updates by 0 forever: for every number of alive-polls `k`
and every fuel `n` the loop guard `actuall_time < estimated_time` still
holds, so the decorated call never returns. -/
theorem no_fail_fast_zero_tstep_diverges (k n : Nat) :
    (progressRun 1 0 k n).a < 1 := by
  have hrun : ∀ m : Nat, (runningPhase 1 0 m).a = 0 ∧ (runningPhase 1 0 m).t = 0 := by
    intro m
    induction m with
    | zero => exact ⟨rfl, rfl⟩
    | succ m ih =>
        rcases ih with ⟨ha, ht⟩
        rw [runningPhase, Function.iterate_succ_apply'] at *
        constructor
        · simp [pollIter, ha, ht]
          norm_num
        · simp [pollIter, ha, ht]
          norm_num
  have hcu : ∀ (m : Nat) (s : PBState), s.a = 0 → s.t = 0 →
      (catchupFuel 1 m s).a = 0 := by
    intro m
    induction m with
    | zero => intro s ha _; simpa [catchupFuel] using ha
    | succ m ih =>
        intro s ha ht
        rw [catchupFuel]
        have hlt : s.a < 1 := by rw [ha]; norm_num
        rw [if_pos hlt]
        refine ih _ ?_ ?_ <;> simp [catchupStep, ha, ht]
  rcases hrun k with ⟨ha, ht⟩
  have := hcu n (runningPhase 1 0 k) ha ht
  rw [progressRun, this]
  norm_num

/-- C3 counterexample: with `estimated_time = 5`, `tstep = 10` and a
worker alive for one poll, the first iteration updates by the full step
10 (overshooting the estimate) and then patches with `5 - 10 = -5`: a
`pbar.update` call with a negative increment, so the displayed progress
decreases. -/
theorem negative_update_cex :
    (-5 : ℚ) ∈ (runningPhase 5 10 1).updates ∧ (-5 : ℚ) < 0 := by
  constructor
  · have : (runningPhase 5 10 1).updates = [10, -5] := by
      simp [runningPhase, pollIter, pbInit]
      norm_num
    rw [this]
    simp
  · norm_num

/-- C4 counterexample: with `estimated_time = 1`, `tstep = 2` and a
worker alive for two polls, the very first update is the full step 2, so
the displayed progress (prefix sum after one update) is 2, exceeding
100 percent of the estimate while the worker is still running. -/
theorem overshoot_while_running_cex :
    ((runningPhase 1 2 2).updates.take 1).sum = 2 ∧ (1 : ℚ) < 2 := by
  constructor
  · simp [runningPhase, pollIter, pbInit, Function.iterate_succ]
    norm_num
  · norm_num

/-- C5 counterexample: with `estimated_time = -2`, `tstep = 1` and a
worker that finishes before the first alive-poll, both loops exit
immediately (the catch-up guard `0 < -2` is false), so the call returns
with total displayed progress 0, not `estimated_time`. -/
theorem completion_convergence_cex :
    (progressRun (-2) 1 0 3).updates.sum = 0 ∧
    ¬ (progressRun (-2) 1 0 3).a < -2 ∧
    (progressRun (-2) 1 0 3).updates.sum ≠ -2 := by
  refine ⟨?_, ?_, ?_⟩ <;>
    simp [progressRun, catchupFuel, runningPhase, pbInit] <;> norm_num

/-- C10 counterexample: with `estimated_time = -1`, `tstep = 1` and a
worker that finishes before the first alive-poll, the loops terminate at
once (guard false) but the accumulated time is 0, not `estimated_time`. -/
theorem terminate_at_estimate_cex :
    (progressRun (-1) 1 0 5).a = 0 ∧
    ¬ (progressRun (-1) 1 0 5).a < -1 ∧
    (progressRun (-1) 1 0 5).a ≠ -1 := by
  refine ⟨?_, ?_, ?_⟩ <;>
    simp [progressRun, catchupFuel, runningPhase, pbInit] <;> norm_num

/-! ### Loop invariants of the two display loops -/

lemma pollIter_eq (est : ℚ) (s : PBState) :
    pollIter est s =
      if s.a < est then
        (if s.a + s.t + s.t > est then
          PBState.mk est (est - (s.a + s.t))
            ((s.updates ++ [s.t]) ++ [est - (s.a + s.t)])
        else PBState.mk (s.a + s.t) s.t (s.updates ++ [s.t]))
      else
        (if s.a + s.t > est then
          PBState.mk est (est - s.a) (s.updates ++ [est - s.a])
        else s) := by
  rw [pollIter]
  by_cases h : s.a < est <;> simp [h]

lemma catchupStep_eq (est : ℚ) (s : PBState) :
    catchupStep est s =
      if s.a + s.t > est then
        PBState.mk est (est - s.a) (s.updates ++ [est - s.a])
      else PBState.mk (s.a + s.t) s.t (s.updates ++ [s.t]) := by
  rw [catchupStep]
  by_cases h : s.a + s.t > est
  · simp only [if_pos h]
    have : s.a + (est - s.a) = est := by ring
    rw [this]
  · simp only [if_neg h]

lemma catchupFuel_of_ge (est : ℚ) (n : Nat) (s : PBState)
    (h : ¬ s.a < est) : catchupFuel est n s = s := by
  cases n with
  | zero => rfl
  | succ n => rw [catchupFuel, if_neg h]

lemma take_append_singleton_sum_le (u : List ℚ) (x B : ℚ)
    (h : ∀ m : Nat, (u.take m).sum ≤ B) (hx : u.sum + x ≤ B) (m : Nat) :
    ((u ++ [x]).take m).sum ≤ B := by
  rcases le_or_lt m u.length with hm | hm
  · rw [List.take_append_of_le_length hm]
    exact h m
  · have hlen : (u ++ [x]).length ≤ m := by
      simp only [List.length_append, List.length_singleton]
      omega
    rw [List.take_of_length_le hlen]
    simpa using hx

/-- Invariant of the polling loop in the well-configured regime
`0 < tstep ≤ estimated_time`: either the step is still the original one
and one more full step fits under the estimate, or the accumulated time
has been pinned to the estimate with a non-negative residual step.  The
update log always sums to the accumulated time, holds no negative
increment, and no prefix sum (displayed progress value) exceeds the
estimate. -/
def MonoInv (est t0 : ℚ) (s : PBState) : Prop :=
  ((s.t = t0 ∧ 0 ≤ s.a ∧ s.a + s.t ≤ est) ∨ (s.a = est ∧ 0 ≤ s.t)) ∧
  s.updates.sum = s.a ∧
  (∀ q ∈ s.updates, 0 ≤ q) ∧
  (∀ m : Nat, (s.updates.take m).sum ≤ est)

lemma monoInv_init (est t0 : ℚ) (ht0 : 0 < t0) (hte : t0 ≤ est) :
    MonoInv est t0 (pbInit t0) := by
  refine ⟨Or.inl ⟨rfl, le_refl 0, ?_⟩, rfl, by simp [pbInit], ?_⟩
  · show (0 : ℚ) + t0 ≤ est
    linarith
  · intro m
    show ((List.take m []).sum : ℚ) ≤ est
    simp
    linarith

lemma monoInv_pollIter (est t0 : ℚ) (ht0 : 0 < t0) (_hte : t0 ≤ est)
    (s : PBState) (hs : MonoInv est t0 s) :
    MonoInv est t0 (pollIter est s) := by
  obtain ⟨hd, hsum, hpos, hpre⟩ := hs
  rw [pollIter_eq]
  rcases hd with ⟨ht, ha0, hfit⟩ | ⟨ha, ht0'⟩
  · have halt : s.a < est := by linarith
    rw [if_pos halt]
    by_cases h2 : s.a + s.t + s.t > est
    · rw [if_pos h2]
      have hx1 : s.updates.sum + s.t ≤ est := by rw [hsum]; linarith
      have hpre1 : ∀ m : Nat, ((s.updates ++ [s.t]).take m).sum ≤ est :=
        take_append_singleton_sum_le s.updates s.t est hpre hx1
      refine ⟨Or.inr ⟨rfl, ?_⟩, ?_, ?_, ?_⟩
      · dsimp only
        linarith
      · dsimp only
        rw [List.sum_append, List.sum_append, List.sum_singleton,
          List.sum_singleton, hsum]
        ring
      · intro q hq
        simp only [List.mem_append, List.mem_singleton] at hq
        rcases hq with (hq | rfl) | rfl
        · exact hpos q hq
        · linarith
        · linarith
      · dsimp only
        refine take_append_singleton_sum_le _ _ _ hpre1 ?_
        rw [List.sum_append, List.sum_singleton, hsum]
        linarith
    · rw [if_neg h2]
      push_neg at h2
      refine ⟨Or.inl ⟨ht, ?_, ?_⟩, ?_, ?_, ?_⟩
      · dsimp only
        linarith
      · dsimp only
        linarith
      · dsimp only
        rw [List.sum_append, List.sum_singleton, hsum]
      · intro q hq
        simp only [List.mem_append, List.mem_singleton] at hq
        rcases hq with hq | rfl
        · exact hpos q hq
        · linarith
      · dsimp only
        refine take_append_singleton_sum_le _ _ _ hpre ?_
        rw [hsum]
        linarith
  · have hnlt : ¬ s.a < est := by rw [ha]; exact lt_irrefl est
    rw [if_neg hnlt]
    by_cases h2 : s.a + s.t > est
    · rw [if_pos h2]
      refine ⟨Or.inr ⟨rfl, ?_⟩, ?_, ?_, ?_⟩
      · dsimp only
        rw [ha]
        simp
      · dsimp only
        rw [List.sum_append, List.sum_singleton, hsum, ha]
        ring
      · intro q hq
        simp only [List.mem_append, List.mem_singleton] at hq
        rcases hq with hq | rfl
        · exact hpos q hq
        · rw [ha]
          simp
      · dsimp only
        refine take_append_singleton_sum_le _ _ _ hpre ?_
        rw [hsum, ha]
        simp
    · rw [if_neg h2]
      exact ⟨Or.inr ⟨ha, ht0'⟩, hsum, hpos, hpre⟩

lemma monoInv_runningPhase (est t0 : ℚ) (ht0 : 0 < t0) (hte : t0 ≤ est)
    (k : Nat) : MonoInv est t0 (runningPhase est t0 k) := by
  induction k with
  | zero => exact monoInv_init est t0 ht0 hte
  | succ k ih =>
      rw [runningPhase, Function.iterate_succ_apply']
      exact monoInv_pollIter est t0 ht0 hte _ ih

/-- Invariant of the catch-up loop in the well-configured regime: the
accumulated time stays within `[0, est]`, the step is positive unless the
estimate has been reached, and the update log stays non-negative with
prefix sums bounded by the estimate. -/
def CatchInv (est : ℚ) (s : PBState) : Prop :=
  (0 ≤ s.a ∧ s.a ≤ est ∧ (0 < s.t ∨ s.a = est)) ∧
  s.updates.sum = s.a ∧
  (∀ q ∈ s.updates, 0 ≤ q) ∧
  (∀ m : Nat, (s.updates.take m).sum ≤ est)

lemma monoInv_catchInv (est t0 : ℚ) (ht0 : 0 < t0) (hte : t0 ≤ est)
    (s : PBState) (hs : MonoInv est t0 s) : CatchInv est s := by
  obtain ⟨hd, hsum, hpos, hpre⟩ := hs
  rcases hd with ⟨ht, ha0, hfit⟩ | ⟨ha, ht'⟩
  · exact ⟨⟨ha0, by linarith, Or.inl (by rw [ht]; exact ht0)⟩, hsum, hpos, hpre⟩
  · exact ⟨⟨by rw [ha]; linarith, le_of_eq ha, Or.inr ha⟩, hsum, hpos, hpre⟩

lemma catchInv_step (est : ℚ) (s : PBState) (hs : CatchInv est s)
    (hlt : s.a < est) : CatchInv est (catchupStep est s) := by
  obtain ⟨⟨ha0, hae, htd⟩, hsum, hpos, hpre⟩ := hs
  have ht : 0 < s.t := by
    rcases htd with h | h
    · exact h
    · exact absurd h (ne_of_lt hlt)
  rw [catchupStep_eq]
  by_cases h2 : s.a + s.t > est
  · rw [if_pos h2]
    refine ⟨⟨?_, le_refl est, Or.inr rfl⟩, ?_, ?_, ?_⟩
    · dsimp only
      linarith
    · dsimp only
      rw [List.sum_append, List.sum_singleton, hsum]
      ring
    · intro q hq
      simp only [List.mem_append, List.mem_singleton] at hq
      rcases hq with hq | rfl
      · exact hpos q hq
      · linarith
    · dsimp only
      refine take_append_singleton_sum_le _ _ _ hpre ?_
      rw [hsum]
      simp
  · rw [if_neg h2]
    push_neg at h2
    refine ⟨⟨?_, h2, Or.inl ht⟩, ?_, ?_, ?_⟩
    · dsimp only
      linarith
    · dsimp only
      rw [List.sum_append, List.sum_singleton, hsum]
    · intro q hq
      simp only [List.mem_append, List.mem_singleton] at hq
      rcases hq with hq | rfl
      · exact hpos q hq
      · linarith
    · dsimp only
      refine take_append_singleton_sum_le _ _ _ hpre ?_
      rw [hsum]
      linarith

lemma catchInv_fuel (est : ℚ) (n : Nat) (s : PBState) (hs : CatchInv est s) :
    CatchInv est (catchupFuel est n s) := by
  induction n generalizing s with
  | zero => exact hs
  | succ n ih =>
      rw [catchupFuel]
      by_cases h : s.a < est
      · rw [if_pos h]
        exact ih _ (catchInv_step est s hs h)
      · rw [if_neg h]
        exact hs

/-- C3 (amended): provided `0 < tstep ≤ estimated_time`, no `pbar.update`
call of either loop carries a negative increment, so the displayed
progress is monotonically non-decreasing across the whole run.  With
`tstep` larger than the estimate the first poll updates by the full step
and then patches with a negative remainder, so the bound on `tstep` is
necessary. -/
theorem updates_nonneg_of_step_le_estimate (est t0 : ℚ) (k n : Nat)
    (q : ℚ) (ht0 : 0 < t0) (hte : t0 ≤ est)
    (hq : q ∈ (progressRun est t0 k n).updates) : 0 ≤ q := by
  have hrun := monoInv_runningPhase est t0 ht0 hte k
  have hcatch := catchInv_fuel est n _ (monoInv_catchInv est t0 ht0 hte _ hrun)
  exact hcatch.2.2.1 q hq

/-- Witness for C3 (amended): with estimate 1, step 1, one alive-poll and
fuel 2, the update log is `[1, 0]` and the increment 1 it contains is
non-negative. -/
theorem updates_nonneg_of_step_le_estimate_witness :
    0 < (1 : ℚ) ∧ (1 : ℚ) ≤ 1 ∧ (1 : ℚ) ∈ (progressRun 1 1 1 2).updates ∧
    (0 : ℚ) ≤ 1 := by
  refine ⟨by norm_num, le_refl 1, ?_, ?_⟩
  · have : (progressRun 1 1 1 2).updates = [1, 0] := by
      simp [progressRun, runningPhase, pollIter, pbInit, catchupFuel]
    rw [this]
    simp
  · exact updates_nonneg_of_step_le_estimate 1 1 1 2 1 (by norm_num)
      (le_refl 1) (by
        have : (progressRun 1 1 1 2).updates = [1, 0] := by
          simp [progressRun, runningPhase, pollIter, pbInit, catchupFuel]
        rw [this]
        simp)

/-- C4 (amended): provided `0 < tstep ≤ estimated_time`, the displayed
progress (any prefix sum of the update log) never exceeds 100 percent of
the estimate during the running phase, even between the two updates of a
single poll.  With `tstep` larger than the estimate the very first full
step already exceeds the estimate, so the bound on `tstep` is
necessary. -/
theorem display_bounded_while_running (est t0 : ℚ) (k m : Nat)
    (ht0 : 0 < t0) (hte : t0 ≤ est) :
    (((runningPhase est t0 k).updates).take m).sum ≤ est :=
  (monoInv_runningPhase est t0 ht0 hte k).2.2.2 m

/-- Witness for C4 (amended): with estimate 2, step 1 and three
alive-polls, the displayed progress after any of the first two updates
stays at most 2. -/
theorem display_bounded_while_running_witness :
    0 < (1 : ℚ) ∧ (1 : ℚ) ≤ 2 ∧
    (((runningPhase 2 1 3).updates).take 2).sum ≤ 2 :=
  ⟨by norm_num, by norm_num,
    display_bounded_while_running 2 1 3 2 (by norm_num) (by norm_num)⟩

/-- Invariant of the polling loop without any relation between `tstep`
and the estimate (only `0 ≤ est` and `0 < t0` assumed): either a full
step still fits, or the accumulated time is pinned at the estimate with a
residual step at most `t0`, or the loop has not managed to move yet; and
the update log sums to the accumulated time with every increment at most
`t0`. -/
def GenInv (est t0 : ℚ) (s : PBState) : Prop :=
  ((s.t = t0 ∧ 0 ≤ s.a ∧ s.a + s.t ≤ est) ∨ (s.a = est ∧ s.t ≤ t0) ∨
    (s.a = 0 ∧ s.t = t0)) ∧
  s.updates.sum = s.a ∧
  (∀ q ∈ s.updates, q ≤ t0)

lemma genInv_init (est t0 : ℚ) : GenInv est t0 (pbInit t0) :=
  ⟨Or.inr (Or.inr ⟨rfl, rfl⟩), rfl, by simp [pbInit]⟩

lemma genInv_pollIter (est t0 : ℚ) (h0 : 0 ≤ est) (ht0 : 0 < t0)
    (s : PBState) (hs : GenInv est t0 s) : GenInv est t0 (pollIter est s) := by
  obtain ⟨hd, hsum, hub⟩ := hs
  have append_mem : ∀ (u : List ℚ) (x q : ℚ), (∀ r ∈ u, r ≤ t0) → x ≤ t0 →
      q ∈ u ++ [x] → q ≤ t0 := by
    intro u x q hu hx hq
    simp only [List.mem_append, List.mem_singleton] at hq
    rcases hq with hq | rfl
    · exact hu q hq
    · exact hx
  rw [pollIter_eq]
  rcases hd with ⟨ht, ha0, hfit⟩ | ⟨ha, htub⟩ | ⟨ha, ht⟩
  · have halt : s.a < est := by linarith
    rw [if_pos halt]
    by_cases h2 : s.a + s.t + s.t > est
    · rw [if_pos h2]
      refine ⟨Or.inr (Or.inl ⟨rfl, ?_⟩), ?_, ?_⟩
      · dsimp only
        linarith
      · dsimp only
        rw [List.sum_append, List.sum_append, List.sum_singleton,
          List.sum_singleton, hsum]
        ring
      · dsimp only
        intro q hq
        refine append_mem _ _ q (fun r hr => append_mem _ _ r hub (by linarith) hr)
          (by linarith) hq
    · rw [if_neg h2]
      push_neg at h2
      refine ⟨Or.inl ⟨ht, by dsimp only; linarith, by dsimp only; linarith⟩,
        ?_, ?_⟩
      · dsimp only
        rw [List.sum_append, List.sum_singleton, hsum]
      · dsimp only
        intro q hq
        exact append_mem _ _ q hub (by linarith) hq
  · have hnlt : ¬ s.a < est := by rw [ha]; exact lt_irrefl est
    rw [if_neg hnlt]
    by_cases h2 : s.a + s.t > est
    · rw [if_pos h2]
      refine ⟨Or.inr (Or.inl ⟨rfl, ?_⟩), ?_, ?_⟩
      · dsimp only
        rw [ha]
        simp
        linarith
      · dsimp only
        rw [List.sum_append, List.sum_singleton, hsum, ha]
        ring
      · dsimp only
        intro q hq
        refine append_mem _ _ q hub ?_ hq
        rw [ha]
        simp
        linarith
    · rw [if_neg h2]
      exact ⟨Or.inr (Or.inl ⟨ha, htub⟩), hsum, hub⟩
  · by_cases hep : 0 < est
    · have halt : s.a < est := by rw [ha]; exact hep
      rw [if_pos halt]
      by_cases h2 : s.a + s.t + s.t > est
      · rw [if_pos h2]
        refine ⟨Or.inr (Or.inl ⟨rfl, ?_⟩), ?_, ?_⟩
        · dsimp only
          rw [ha, ht] at h2 ⊢
          linarith
        · dsimp only
          rw [List.sum_append, List.sum_append, List.sum_singleton,
            List.sum_singleton, hsum]
          ring
        · dsimp only
          intro q hq
          rw [ha, ht] at h2
          refine append_mem _ _ q
            (fun r hr => append_mem _ _ r hub (by rw [ht]) hr) ?_ hq
          rw [ha, ht]
          linarith
      · rw [if_neg h2]
        push_neg at h2
        refine ⟨Or.inl ⟨ht, ?_, ?_⟩, ?_, ?_⟩
        · dsimp only
          rw [ha, ht]
          linarith
        · dsimp only
          linarith
        · dsimp only
          rw [List.sum_append, List.sum_singleton, hsum]
        · dsimp only
          intro q hq
          exact append_mem _ _ q hub (by rw [ht]) hq
    · have hez : est = 0 := le_antisymm (not_lt.mp hep) h0
      have hnlt : ¬ s.a < est := by rw [ha, hez]; exact lt_irrefl 0
      rw [if_neg hnlt]
      have h2 : s.a + s.t > est := by
        rw [ha, ht, hez]
        simpa using ht0
      rw [if_pos h2]
      refine ⟨Or.inr (Or.inl ⟨rfl, ?_⟩), ?_, ?_⟩
      · dsimp only
        rw [ha]
        simp
        linarith
      · dsimp only
        rw [List.sum_append, List.sum_singleton, hsum, ha]
        ring
      · dsimp only
        intro q hq
        refine append_mem _ _ q hub ?_ hq
        rw [ha]
        simp
        linarith

lemma genInv_runningPhase (est t0 : ℚ) (h0 : 0 ≤ est) (ht0 : 0 < t0)
    (k : Nat) : GenInv est t0 (runningPhase est t0 k) := by
  induction k with
  | zero => exact genInv_init est t0
  | succ k ih =>
      rw [runningPhase, Function.iterate_succ_apply']
      exact genInv_pollIter est t0 h0 ht0 _ ih

/-- Invariant of the catch-up loop without any relation between `tstep`
and the estimate. -/
def GenCatchInv (est t0 : ℚ) (s : PBState) : Prop :=
  0 ≤ s.a ∧ s.a ≤ est ∧ (s.a = est ∨ (0 < s.t ∧ s.t ≤ t0)) ∧
  s.updates.sum = s.a ∧
  (∀ q ∈ s.updates, q ≤ t0)

lemma genInv_genCatchInv (est t0 : ℚ) (h0 : 0 ≤ est) (ht0 : 0 < t0)
    (s : PBState) (hs : GenInv est t0 s) : GenCatchInv est t0 s := by
  obtain ⟨hd, hsum, hub⟩ := hs
  rcases hd with ⟨ht, ha0, hfit⟩ | ⟨ha, htub⟩ | ⟨ha, ht⟩
  · exact ⟨ha0, by linarith, Or.inr ⟨by rw [ht]; exact ht0, le_of_eq ht⟩,
      hsum, hub⟩
  · exact ⟨by rw [ha]; exact h0, le_of_eq ha, Or.inl ha, hsum, hub⟩
  · exact ⟨le_of_eq ha.symm, by rw [ha]; exact h0,
      Or.inr ⟨by rw [ht]; exact ht0, le_of_eq ht⟩, hsum, hub⟩

lemma genCatchInv_step (est t0 : ℚ) (s : PBState)
    (hs : GenCatchInv est t0 s) (hlt : s.a < est) :
    GenCatchInv est t0 (catchupStep est s) := by
  obtain ⟨ha0, hae, htd, hsum, hub⟩ := hs
  obtain ⟨ht, htub⟩ : 0 < s.t ∧ s.t ≤ t0 := by
    rcases htd with h | h
    · exact absurd h (ne_of_lt hlt)
    · exact h
  rw [catchupStep_eq]
  by_cases h2 : s.a + s.t > est
  · rw [if_pos h2]
    refine ⟨by dsimp only; linarith, le_refl est,
      Or.inr ⟨by dsimp only; linarith, by dsimp only; linarith⟩, ?_, ?_⟩
    · dsimp only
      rw [List.sum_append, List.sum_singleton, hsum]
      ring
    · dsimp only
      intro q hq
      simp only [List.mem_append, List.mem_singleton] at hq
      rcases hq with hq | rfl
      · exact hub q hq
      · linarith
  · rw [if_neg h2]
    push_neg at h2
    refine ⟨by dsimp only; linarith, h2, Or.inr ⟨ht, htub⟩, ?_, ?_⟩
    · dsimp only
      rw [List.sum_append, List.sum_singleton, hsum]
    · dsimp only
      intro q hq
      simp only [List.mem_append, List.mem_singleton] at hq
      rcases hq with hq | rfl
      · exact hub q hq
      · exact htub

lemma genCatchInv_fuel (est t0 : ℚ) (n : Nat) (s : PBState)
    (hs : GenCatchInv est t0 s) : GenCatchInv est t0 (catchupFuel est n s) := by
  induction n generalizing s with
  | zero => exact hs
  | succ n ih =>
      rw [catchupFuel]
      by_cases h : s.a < est
      · rw [if_pos h]
        exact ih _ (genCatchInv_step est t0 s hs h)
      · rw [if_neg h]
        exact hs

/-- Drain property of the catch-up loop: from any state satisfying the
catch-up invariant whose remaining distance to the estimate is covered by
`m` steps, `m + 1` iterations of fuel land exactly on the estimate. -/
lemma catchup_drain (est t0 : ℚ) :
    ∀ (m : Nat) (s : PBState), GenCatchInv est t0 s →
      est - s.a ≤ (m : ℚ) * s.t → (catchupFuel est (m + 1) s).a = est := by
  intro m
  induction m with
  | zero =>
      intro s hs hm
      obtain ⟨_, hae, _, _, _⟩ := hs
      have : s.a = est := by
        simp only [Nat.cast_zero, zero_mul] at hm
        linarith
      rw [catchupFuel, if_neg (by rw [this]; exact lt_irrefl est)]
      exact this
  | succ m ih =>
      intro s hs hm
      by_cases hlt : s.a < est
      · obtain ⟨ha0, hae, htd, hsum, hub⟩ := hs
        obtain ⟨ht, htub⟩ : 0 < s.t ∧ s.t ≤ t0 := by
          rcases htd with h | h
          · exact absurd h (ne_of_lt hlt)
          · exact h
        have hstep : catchupFuel est (m + 1 + 1) s =
            catchupFuel est (m + 1) (catchupStep est s) := by
          rw [catchupFuel, if_pos hlt]
        rw [hstep]
        have hinv : GenCatchInv est t0 (catchupStep est s) :=
          genCatchInv_step est t0 s ⟨ha0, hae, htd, hsum, hub⟩ hlt
        rw [catchupStep_eq]
        rw [catchupStep_eq] at hinv
        by_cases h2 : s.a + s.t > est
        · rw [if_pos h2]
          rw [if_pos h2] at hinv
          refine ih _ hinv ?_
          dsimp only
          have hmn : (0 : ℚ) ≤ (m : ℚ) * (est - s.a) := by
            apply mul_nonneg (Nat.cast_nonneg m)
            linarith
          linarith
        · rw [if_neg h2]
          rw [if_neg h2] at hinv
          refine ih _ hinv ?_
          dsimp only
          push_neg at h2
          have hm' : est - s.a ≤ ((m : ℚ) + 1) * s.t := by
            have : ((m : ℚ) + 1) = ((m + 1 : Nat) : ℚ) := by push_cast; ring
            rw [this]
            exact hm
          nlinarith
      · rw [catchupFuel_of_ge est (m + 1 + 1) s hlt]
        obtain ⟨_, hae, _, _, _⟩ := hs
        linarith [not_lt.mp hlt]

/-- C5 (amended): provided `estimated_time ≥ 0` and `tstep > 0`, there is
a finite fuel for which the run completes with total displayed progress
(the sum of all `pbar.update` increments) exactly the estimate — the
catch-up loop drains any shortfall — and every increment is at most
`tstep` (full steps or a smaller final remainder).  A negative estimate
with an immediately-finished worker leaves the total at 0, so the sign
condition on the estimate is necessary. -/
theorem completion_total_equals_estimate (est t0 : ℚ) (k : Nat)
    (h0 : 0 ≤ est) (ht0 : 0 < t0) :
    ∃ n, (progressRun est t0 k n).updates.sum = est ∧
      (progressRun est t0 k n).a = est ∧
      ∀ q ∈ (progressRun est t0 k n).updates, q ≤ t0 := by
  have hrp := genInv_genCatchInv est t0 h0 ht0 _
    (genInv_runningPhase est t0 h0 ht0 k)
  obtain ⟨ha0, hae, htd, hsum, hub⟩ := hrp
  rcases htd with ha | ⟨ht, htub⟩
  · refine ⟨0, ?_, ?_, ?_⟩
    · rw [progressRun]
      rw [catchupFuel]
      rw [hsum, ha]
    · rw [progressRun, catchupFuel]
      exact ha
    · rw [progressRun, catchupFuel]
      exact hub
  · obtain ⟨m, hm⟩ := exists_nat_ge ((est - (runningPhase est t0 k).a) /
      (runningPhase est t0 k).t)
    have hcover : est - (runningPhase est t0 k).a ≤
        (m : ℚ) * (runningPhase est t0 k).t := by
      have := (div_le_iff₀ ht).mp hm
      linarith [this]
    refine ⟨m + 1, ?_, ?_, ?_⟩
    · have hfin := genCatchInv_fuel est t0 (m + 1) _
        ⟨ha0, hae, Or.inr ⟨ht, htub⟩, hsum, hub⟩
      have hdr := catchup_drain est t0 m _
        ⟨ha0, hae, Or.inr ⟨ht, htub⟩, hsum, hub⟩ hcover
      rw [progressRun, hfin.2.2.2.1, hdr]
    · exact catchup_drain est t0 m _
        ⟨ha0, hae, Or.inr ⟨ht, htub⟩, hsum, hub⟩ hcover
    · exact (genCatchInv_fuel est t0 (m + 1) _
        ⟨ha0, hae, Or.inr ⟨ht, htub⟩, hsum, hub⟩).2.2.2.2

/-- Witness for C5 (amended): estimate 2, step 1, worker finished before
the first alive-poll; some fuel drains the bar exactly to 2. -/
theorem completion_total_equals_estimate_witness :
    (0 : ℚ) ≤ 2 ∧ 0 < (1 : ℚ) ∧
    ∃ n, (progressRun 2 1 0 n).updates.sum = 2 ∧
      (progressRun 2 1 0 n).a = 2 ∧
      ∀ q ∈ (progressRun 2 1 0 n).updates, q ≤ 1 :=
  ⟨by norm_num, by norm_num,
    completion_total_equals_estimate 2 1 0 (by norm_num) (by norm_num)⟩

/-- C10 (amended): provided `estimated_time ≥ 0` and `tstep > 0`, once
the worker has finished (after any number `k` of alive-polls) the
foreground loops terminate: some finite fuel reaches accumulated time
exactly `estimated_time`, after which any further catch-up iteration
leaves the state unchanged (the loop guard has failed).  A negative
estimate with an immediately-finished worker terminates at accumulated
time 0 instead, so the sign condition on the estimate is necessary. -/
theorem loops_terminate_at_estimate (est t0 : ℚ) (k : Nat)
    (h0 : 0 ≤ est) (ht0 : 0 < t0) :
    ∃ n, (progressRun est t0 k n).a = est ∧
      ∀ m : Nat, catchupFuel est m (progressRun est t0 k n) =
        progressRun est t0 k n := by
  have hrp := genInv_genCatchInv est t0 h0 ht0 _
    (genInv_runningPhase est t0 h0 ht0 k)
  obtain ⟨ha0, hae, htd, hsum, hub⟩ := hrp
  rcases htd with ha | ⟨ht, htub⟩
  · refine ⟨0, ?_, ?_⟩
    · rw [progressRun, catchupFuel]
      exact ha
    · intro m
      rw [progressRun, catchupFuel]
      exact catchupFuel_of_ge est m _ (by rw [ha]; exact lt_irrefl est)
  · obtain ⟨m, hm⟩ := exists_nat_ge ((est - (runningPhase est t0 k).a) /
      (runningPhase est t0 k).t)
    have hcover : est - (runningPhase est t0 k).a ≤
        (m : ℚ) * (runningPhase est t0 k).t := by
      have := (div_le_iff₀ ht).mp hm
      linarith [this]
    have hdr := catchup_drain est t0 m _
      ⟨ha0, hae, Or.inr ⟨ht, htub⟩, hsum, hub⟩ hcover
    refine ⟨m + 1, hdr, ?_⟩
    intro m'
    exact catchupFuel_of_ge est m' _ (by rw [progressRun, hdr]; exact lt_irrefl est)

/-- Witness for C10 (amended): estimate 1, step 1, three alive-polls;
some fuel terminates the loops with the accumulated time pinned at 1. -/
theorem loops_terminate_at_estimate_witness :
    (0 : ℚ) ≤ 1 ∧ 0 < (1 : ℚ) ∧
    ∃ n, (progressRun 1 1 3 n).a = 1 ∧
      ∀ m : Nat, catchupFuel 1 m (progressRun 1 1 3 n) = progressRun 1 1 3 n :=
  ⟨by norm_num, by norm_num,
    loops_terminate_at_estimate 1 1 3 (by norm_num) (by norm_num)⟩

end Dmutils
